import Mathlib

/-!
Verification of the audio-conditioning pipeline in
`app/services/audio_processing.py` (Live-Urdu-Transcriber).

Modelling conventions.

* Python floats are modelled by exact rationals (`ℚ`); sample buffers are
  `List ℚ`, raw PCM samples are `List ℤ`, byte strings are `List ℕ`
  (each entry a byte value).
* The source converts decibel parameters to linear amplitudes once, via
  `_db_to_linear(db) = 10 ** (db / 20.0)`, and every subsequent comparison
  uses only the resulting linear amplitude.  Since `10^(x/20)` is
  irrational for rational `x`, each stage here takes the *linear*
  amplitude as its threshold parameter.  Every value `10^(db/20)` is a
  positive real, so theorems quantify over arbitrary (positive, where
  relevant) linear thresholds, covering every decibel setting.
* The WAV container itself is parsed by the Python standard-library
  `wave` module (external to the repository); a parsed container is the
  structure `WavData` (sample rate, channel count, sample width in
  bytes, raw frame bytes), exactly the fields `_read_wav_bytes` reads
  from `wave.open`.  `prepare_audio` receives both the raw byte string
  (whose emptiness it tests first) and the parsed container that the
  `wave` module would produce for it.
-/

/-- `np.clip(x, lo, hi)` on a scalar: `min (max x lo) hi`. -/
def clip (x lo hi : ℚ) : ℚ := min (max x lo) hi

/-- `np.sign` on a scalar: `-1`, `0`, or `1`. -/
def npSign (x : ℚ) : ℚ := if x < 0 then -1 else if 0 < x then 1 else 0

/-- Truncation of a rational toward zero, the semantics of C float→int
conversion used by `.astype(np.int16)`. -/
def truncQ (q : ℚ) : ℤ := q.num / (q.den : ℤ)

/-- The numpy dtypes `_read_wav_bytes` can produce. -/
inductive Dtype where
  | uint8
  | int16
  | int32
deriving DecidableEq, Repr

/-- Errors that can escape `_read_wav_bytes`: the explicit
`ValueError("Unsupported WAV sample width")` (the spec's
`UnsupportedFormat`), numpy's `frombuffer` length check, and numpy's
`reshape(-1, channels)` divisibility check. -/
inductive AudioError where
  | unsupportedSampleWidth
  | frameSizeMismatch
  | reshapeMismatch
deriving DecidableEq, Repr

/-- A WAV container as parsed by the `wave` module: the four values
`_read_wav_bytes` extracts (`getframerate`, `getnchannels`,
`getsampwidth`, `readframes`). -/
structure WavData where
  sampleRate : ℕ
  channels : ℕ
  sampleWidth : ℕ
  frames : List ℕ
deriving DecidableEq, Repr

/-- Result of `np.frombuffer` + optional reshape: dtype tag, channel
count and the flat row-major sample list. -/
structure RawAudio where
  dtype : Dtype
  channels : ℕ
  samples : List ℤ
deriving DecidableEq, Repr

/-- Two's-complement interpretation of a 16-bit little-endian value. -/
def toSigned16 (v : ℕ) : ℤ := if v < 32768 then (v : ℤ) else (v : ℤ) - 65536

/-- Two's-complement interpretation of a 32-bit little-endian value. -/
def toSigned32 (v : ℕ) : ℤ :=
  if v < 2147483648 then (v : ℤ) else (v : ℤ) - 4294967296

/-- `np.frombuffer(frames, np.int16)`: consecutive little-endian byte
pairs (the guard in `decodeByWidth` ensures no trailing byte). -/
def decodeInt16Samples : List ℕ → List ℤ
  | b0 :: b1 :: rest => toSigned16 (b0 + 256 * b1) :: decodeInt16Samples rest
  | _ => []

/-- `np.frombuffer(frames, np.int32)`: consecutive little-endian byte
quadruples (the guard in `decodeByWidth` ensures no remainder). -/
def decodeInt32Samples : List ℕ → List ℤ
  | b0 :: b1 :: b2 :: b3 :: rest =>
      toSigned32 (b0 + 256 * b1 + 65536 * b2 + 16777216 * b3)
        :: decodeInt32Samples rest
  | _ => []

/-- Width dispatch of `_read_wav_bytes`: widths 1, 2, 4 select
`np.uint8`, `np.int16`, `np.int32`; any other width raises
`ValueError("Unsupported WAV sample width")`.  `np.frombuffer` raises
when the byte count is not a multiple of the item size. -/
def decodeByWidth (width : ℕ) (frames : List ℕ) :
    Except AudioError (Dtype × List ℤ) :=
  match width with
  | 1 => .ok (.uint8, frames.map (fun b => (b : ℤ)))
  | 2 =>
      if frames.length % 2 = 0 then .ok (.int16, decodeInt16Samples frames)
      else .error .frameSizeMismatch
  | 4 =>
      if frames.length % 4 = 0 then .ok (.int32, decodeInt32Samples frames)
      else .error .frameSizeMismatch
  | _ => .error .unsupportedSampleWidth

/-- `_read_wav_bytes`: decode the frame bytes at the declared sample
width; with more than one channel, `reshape(-1, channels)` requires the
sample count to be divisible by the channel count. -/
def read_wav_bytes (w : WavData) : Except AudioError (ℕ × RawAudio) :=
  match decodeByWidth w.sampleWidth w.frames with
  | .error e => .error e
  | .ok (d, samples) =>
      if 1 < w.channels ∧ samples.length % w.channels ≠ 0 then
        .error .reshapeMismatch
      else .ok (w.sampleRate, ⟨d, w.channels, samples⟩)

/-- Scalar integer→float mapping of `_to_float32`, per dtype, with the
clip to `[-1, 1]` the source applies. -/
def sampleToFloat : Dtype → ℤ → ℚ
  | .int16, s => clip ((s : ℚ) / 32768) (-1) 1
  | .int32, s => clip ((s : ℚ) / 2147483648) (-1) 1
  | .uint8, s => clip (((s : ℚ) - 128) / 128) (-1) 1

/-- `_to_float32`: elementwise dtype-directed conversion of the decoded
samples to floats in `[-1, 1]`. -/
def to_float32 (r : RawAudio) : List ℚ := r.samples.map (sampleToFloat r.dtype)

/-- Split a list into consecutive chunks of `k` elements (the rows of
numpy's `reshape(-1, k)`). -/
def chunkList (k : ℕ) (l : List α) : List (List α) :=
  if h : l.length = 0 ∨ k = 0 then []
  else l.take k :: chunkList k (l.drop k)
termination_by l.length
decreasing_by
  simp only [not_or] at h
  simp only [List.length_drop]
  omega

/-- `_ensure_mono`: a one-dimensional buffer passes through; a
multi-channel buffer is collapsed by `mean(axis=1)`, the arithmetic mean
of each row of `channels` samples. -/
def ensure_mono (channels : ℕ) (audio : List ℚ) : List ℚ :=
  if channels ≤ 1 then audio
  else (chunkList channels audio).map (fun row => row.sum / (channels : ℚ))

/-- Python's `round` (half to even), as used in `int(round(x))` on a
nonnegative value. -/
def pyRound (q : ℚ) : ℤ :=
  let f := ⌊q⌋
  let r := q - (f : ℚ)
  if r < 1/2 then f
  else if 1/2 < r then f + 1
  else if f % 2 = 0 then f else f + 1

/-- `np.linspace(0, d, num, endpoint=False)`: the `num` points
`i * (d / num)`. -/
def linspace (d : ℚ) (num : ℕ) : List ℚ :=
  (List.range num).map (fun i : ℕ => (i : ℚ) * (d / (num : ℚ)))

/-- `np.interp x xp fp` over the zipped list of `(xp, fp)` pairs
(assumed increasing in the first component): clamp to the first value
below the first point and to the last value above the last point,
linear interpolation in between. -/
def npInterp (x : ℚ) : List (ℚ × ℚ) → ℚ
  | [] => 0
  | [(_, y0)] => y0
  | (x0, y0) :: (x1, y1) :: rest =>
      if x ≤ x0 then y0
      else if x ≤ x1 then y0 + (y1 - y0) * (x - x0) / (x1 - x0)
      else npInterp x ((x1, y1) :: rest)

/-- The target length `int(round(duration * target_rate))` computed by
`_resample` with `duration = sample_count / input_rate`. -/
def resampleTargetLength (sampleCount inputRate targetRate : ℕ) : ℤ :=
  pyRound (((sampleCount : ℚ) / (inputRate : ℚ)) * (targetRate : ℚ))

/-- `_resample`: identity when the rates agree or the buffer is empty
or the computed target length is ≤ 1; otherwise linear interpolation of
the original signal at `target_length` evenly spaced time points. -/
def resample (audio : List ℚ) (inputRate targetRate : ℕ) : List ℚ :=
  if inputRate = targetRate ∨ audio.length = 0 then audio
  else
    let duration : ℚ := (audio.length : ℚ) / (inputRate : ℚ)
    let targetLength : ℤ := resampleTargetLength audio.length inputRate targetRate
    if targetLength ≤ 1 then audio
    else
      let xOld := linspace duration audio.length
      let xNew := linspace duration targetLength.toNat
      xNew.map (fun x => npInterp x (xOld.zip audio))

/-- `_apply_noise_gate`: every sample whose absolute value is strictly
below the linear threshold is replaced with `0.0`; the rest pass
through.  `lin` is the linear amplitude `10^(threshold_db/20)` the
source computes via `_db_to_linear`. -/
def apply_noise_gate (audio : List ℚ) (lin : ℚ) : List ℚ :=
  if audio.length = 0 then audio
  else audio.map (fun a => if |a| < lin then 0 else a)

/-- The sorted list of indices `np.where(np.abs(audio) >= threshold)[0]`
used by `_trim_dead_air`. -/
def trimIndices (audio : List ℚ) (lin : ℚ) : List ℕ :=
  (List.range audio.length).filter (fun i => lin ≤ |audio.getD i 0|)

/-- `_trim_dead_air`: keep the inclusive span from the first to the
last index whose absolute value meets the linear threshold `lin`
(`= 10^(threshold_db/20)` in the source); if no index qualifies, return
the empty buffer. -/
def trim_dead_air (audio : List ℚ) (lin : ℚ) : List ℚ :=
  if audio.length = 0 then audio
  else
    match h : trimIndices audio lin with
    | [] => []
    | i :: rest =>
        let e := (i :: rest).getLast (List.cons_ne_nil i rest)
        (audio.drop i).take (e + 1 - i)

/-- `np.max(np.abs(audio))`, extended with value `0` on the empty list
(the source only evaluates it on nonempty buffers, whose samples have
nonnegative absolute value, so the `0` seed is inert). -/
def peak (audio : List ℚ) : ℚ := audio.foldr (fun a m => max |a| m) 0

/-- `_normalize_peak`: empty buffers and buffers with peak ≤ 0 pass
through; otherwise every sample is divided by the peak and clipped to
`[-1, 1]`. -/
def normalize_peak (audio : List ℚ) : List ℚ :=
  if audio.length = 0 then audio
  else
    let p := peak audio
    if p ≤ 0 then audio
    else audio.map (fun a => clip (a / p) (-1) 1)

/-- `_compress_dynamic_range`: samples whose absolute value exceeds the
linear threshold `lin` (`= 10^(threshold_db/20)` in the source) are
replaced by `sign(a) * (lin + (|a| - lin) / max R 1)` where `R` is the
compressor ratio; the rest are untouched. -/
def compress_dynamic_range (audio : List ℚ) (lin R : ℚ) : List ℚ :=
  if audio.length = 0 then audio
  else audio.map (fun a =>
    if lin < |a| then npSign a * (lin + (|a| - lin) / max R 1) else a)

/-- Little-endian bytes of a 16-bit unsigned value. -/
def u16le (n : ℕ) : List ℕ := [n % 256, n / 256 % 256]

/-- Little-endian bytes of a 32-bit unsigned value. -/
def u32le (n : ℕ) : List ℕ :=
  [n % 256, n / 256 % 256, n / 65536 % 256, n / 16777216 % 256]

/-- Little-endian two's-complement bytes of an `int16` sample. -/
def int16le (s : ℤ) : List ℕ := u16le (s % 65536).toNat

/-- The float→int16 conversion of `_write_wav_bytes`:
`(a * 32767.0).clip(-32768, 32767).astype(np.int16)` on one sample. -/
def floatToInt16 (x : ℚ) : ℤ := truncQ (clip (x * 32767) (-32768) 32767)

/-- `_write_wav_bytes`: the canonical mono 16-bit PCM WAV byte string
the `wave` module emits for `setnchannels(1); setsampwidth(2);
setframerate(rate); writeframes(...)`. -/
def write_wav_bytes (audio : List ℚ) (sampleRate : ℕ) : List ℕ :=
  let dataBytes := ((audio.map floatToInt16).map int16le).flatten
  let dataLen := dataBytes.length
  [82, 73, 70, 70] ++ u32le (36 + dataLen) ++ [87, 65, 86, 69] ++
    [102, 109, 116, 32] ++ u32le 16 ++ u16le 1 ++ u16le 1 ++
    u32le sampleRate ++ u32le (sampleRate * 2) ++ u16le 2 ++ u16le 16 ++
    [100, 97, 116, 97] ++ u32le dataLen ++ dataBytes

/-- `DEFAULT_SAMPLE_RATE`. -/
def DEFAULT_SAMPLE_RATE : ℕ := 16000

/-- `prepare_audio`.  `audioBytes` is the raw byte string (the source
first tests `if not audio_bytes`), `wav` the container the standard
`wave` module parses from it, `fmt` the advisory `input_format` tag.
`noiseGateLin` and `trimLin` are the linear amplitudes the source
computes as `_db_to_linear(noise_gate_db)` and
`_db_to_linear(noise_gate_db + DEFAULT_TRIM_SILENCE_DB_OFFSET)` (offset
`5.0` dB, so `0 < noiseGateLin < trimLin` for every gate setting);
`compThresholdLin = _db_to_linear(compressor_threshold_db)`; `R` is
`compressor_ratio`. -/
def prepare_audio (audioBytes : List ℕ) (wav : WavData) (fmt : Option String)
    (noiseGateLin trimLin compThresholdLin R : ℚ) :
    Except AudioError (Option (List ℕ)) :=
  if audioBytes = [] then .ok none
  else
    match read_wav_bytes wav with
    | .error e => .error e
    | .ok (sampleRate, raw) =>
        let audio := ensure_mono raw.channels (to_float32 raw)
        let audio := resample audio sampleRate DEFAULT_SAMPLE_RATE
        let gated := apply_noise_gate audio noiseGateLin
        let trimmed := trim_dead_air gated trimLin
        if trimmed.length = 0 then .ok none
        else
          let normalized := normalize_peak trimmed
          let compressed := compress_dynamic_range normalized compThresholdLin R
          .ok (some (write_wav_bytes compressed DEFAULT_SAMPLE_RATE))

/-! ### Helper lemmas -/

lemma clip_mem_Icc (x : ℚ) : -1 ≤ clip x (-1) 1 ∧ clip x (-1) 1 ≤ 1 := by
  unfold clip
  constructor
  · exact le_min (le_max_right x (-1)) (by norm_num)
  · exact min_le_right _ _

lemma clip_of_mem (x : ℚ) (h1 : -1 ≤ x) (h2 : x ≤ 1) : clip x (-1) 1 = x := by
  unfold clip
  rw [max_eq_left h1, min_eq_left h2]

lemma decodeByWidth_unsupported (width : ℕ) (frames : List ℕ)
    (h1 : width ≠ 1) (h2 : width ≠ 2) (h4 : width ≠ 4) :
    decodeByWidth width frames = .error .unsupportedSampleWidth := by
  unfold decodeByWidth
  split
  · omega
  · omega
  · omega
  · rfl

lemma read_wav_bytes_unsupported (w : WavData)
    (h1 : w.sampleWidth ≠ 1) (h2 : w.sampleWidth ≠ 2) (h4 : w.sampleWidth ≠ 4) :
    read_wav_bytes w = .error .unsupportedSampleWidth := by
  unfold read_wav_bytes
  rw [decodeByWidth_unsupported _ _ h1 h2 h4]

/-! ### C10 -/

/-- C10: `prepare_audio` applied to the empty byte buffer returns `None`
(the same absence value used for the "no usable audio" outcome),
whatever the parse of the container would have been, without raising any
decode or format error. -/
theorem prepare_audio_empty_bytes (wav : WavData) (fmt : Option String)
    (g t c R : ℚ) :
    prepare_audio [] wav fmt g t c R = Except.ok none := rfl

/-! ### C9 -/

/-- C9 counterexample: a tag naming an unsupported container is *not*
rejected: `prepare_audio` on a decodable input with the advisory tag
`"application/x-bogus"` succeeds (`Except.ok`), with the very same
result as with the tag `"wav"`.  No validation of `input_format`
exists in the code. -/
theorem prepare_audio_bogus_tag_not_rejected :
    prepare_audio [1] ⟨8000, 1, 2, []⟩ (some "application/x-bogus")
        (1/100) (1/100) (1/10) 4 = Except.ok none ∧
    prepare_audio [1] ⟨8000, 1, 2, []⟩ (some "application/x-bogus")
        (1/100) (1/100) (1/10) 4 =
      prepare_audio [1] ⟨8000, 1, 2, []⟩ (some "wav")
        (1/100) (1/100) (1/10) 4 := by
  constructor <;> rfl

/-- C9 (amended): `prepare_audio`'s `input_format` argument is ignored
entirely — any two values of the tag yield identical results on all
inputs and parameters; no validation or rejection of the tag occurs
anywhere in the function. -/
theorem prepare_audio_ignores_input_format (bytes : List ℕ) (wav : WavData)
    (f1 f2 : Option String) (g t c R : ℚ) :
    prepare_audio bytes wav f1 g t c R = prepare_audio bytes wav f2 g t c R := rfl

/-! ### C7 -/

/-- C7: decoding succeeds only for sample widths 1, 2, 4 bytes
(8/16/32 bits); a container declaring any other width — in particular
3 bytes, i.e. 24-bit — fails with the unsupported-format error
(the source's `ValueError("Unsupported WAV sample width")`), and since
the result is `Except.error`, no partial result is produced. -/
theorem read_wav_bytes_width_dispatch (w : WavData) :
    (∀ r a, read_wav_bytes w = .ok (r, a) →
      w.sampleWidth = 1 ∨ w.sampleWidth = 2 ∨ w.sampleWidth = 4) ∧
    (w.sampleWidth ≠ 1 → w.sampleWidth ≠ 2 → w.sampleWidth ≠ 4 →
      read_wav_bytes w = .error .unsupportedSampleWidth) := by
  constructor
  · intro r a hok
    by_contra hcon
    push_neg at hcon
    obtain ⟨h1, h2, h4⟩ := hcon
    rw [read_wav_bytes_unsupported w h1 h2 h4] at hok
    exact absurd hok (by simp)
  · exact read_wav_bytes_unsupported w

/-- C7 witness: a 24-bit (3-byte sample width) mono container fails
with the unsupported-format error. -/
theorem read_wav_bytes_24bit_fails :
    read_wav_bytes ⟨8000, 1, 3, [0, 0, 0]⟩ =
      Except.error AudioError.unsupportedSampleWidth :=
  (read_wav_bytes_width_dispatch ⟨8000, 1, 3, [0, 0, 0]⟩).2
    (by decide) (by decide) (by decide)

/-! ### C3 -/

/-- C3: the noise gate preserves length; each output sample is `0` when
the corresponding input sample's absolute value is strictly below the
linear threshold and is the input sample otherwise; hence every output
sample `s` satisfies `|s| = 0` or `|s| ≥ lin`. -/
theorem apply_noise_gate_spec (audio : List ℚ) (lin : ℚ) :
    (apply_noise_gate audio lin).length = audio.length ∧
    (∀ i, i < audio.length →
      (apply_noise_gate audio lin).getD i 0 =
        if |audio.getD i 0| < lin then 0 else audio.getD i 0) ∧
    (∀ x ∈ apply_noise_gate audio lin, |x| = 0 ∨ lin ≤ |x|) := by
  unfold apply_noise_gate
  by_cases hlen : audio.length = 0
  · simp [hlen, List.length_eq_zero.mp hlen]
  · simp only [hlen, if_false]
    refine ⟨List.length_map _ _, ?_, ?_⟩
    · intro i hi
      rw [List.getD_eq_getElem _ _ (by simpa using hi),
        List.getD_eq_getElem _ _ hi, List.getElem_map]
    · intro x hx
      obtain ⟨a, _, rfl⟩ := List.mem_map.mp hx
      by_cases hlt : |a| < lin
      · simp [hlt]
      · simp only [hlt, if_false]
        exact Or.inr (le_of_not_lt hlt)

/-- C3 witness: on the buffer `[0, 1/2, -3]` with linear threshold `1`,
the middle sample is gated to `0` and every output sample is `0` or has
absolute value at least `1`. -/
theorem apply_noise_gate_spec_witness :
    (apply_noise_gate [0, 1/2, -3] 1).getD 1 0 = 0 ∧
    (∀ x ∈ apply_noise_gate [0, 1/2, -3] 1, |x| = 0 ∨ 1 ≤ |x|) := by
  have h := apply_noise_gate_spec [0, 1/2, -3] 1
  refine ⟨?_, h.2.2⟩
  have h2 := h.2.1 1 (by decide)
  rw [if_pos (by rw [show ([0, 1/2, -3] : List ℚ).getD 1 0 = 1/2 from rfl,
    abs_of_pos] <;> norm_num)] at h2
  exact h2

/-! ### C2 -/

lemma trimIndices_mem (audio : List ℚ) (lin : ℚ) (j : ℕ) :
    j ∈ trimIndices audio lin ↔ j < audio.length ∧ lin ≤ |audio.getD j 0| := by
  simp [trimIndices, List.mem_filter, List.mem_range]

lemma trimIndices_pairwise (audio : List ℚ) (lin : ℚ) :
    (trimIndices audio lin).Pairwise (· < ·) :=
  List.Pairwise.filter _ (List.pairwise_lt_range _)

lemma mem_le_getLast : ∀ (l : List ℕ) (h : l ≠ []),
    l.Pairwise (· < ·) → ∀ j ∈ l, j ≤ l.getLast h := by
  intro l
  induction l with
  | nil => intro h; exact absurd rfl h
  | cons a t ih =>
    intro _ hp j hj
    cases t with
    | nil =>
      rw [List.mem_singleton.mp hj]
      rfl
    | cons b u =>
      rw [List.getLast_cons (List.cons_ne_nil b u)]
      rcases List.mem_cons.mp hj with rfl | hj'
      · exact le_of_lt (List.rel_of_pairwise_cons hp
          (List.getLast_mem (List.cons_ne_nil b u)))
      · exact ih (List.cons_ne_nil b u) (List.Pairwise.of_cons hp) j hj'

lemma trim_dead_air_of_none (audio : List ℚ) (lin : ℚ)
    (hno : ∀ i, i < audio.length → |audio.getD i 0| < lin) :
    trim_dead_air audio lin = [] := by
  have hidx : trimIndices audio lin = [] := by
    rw [trimIndices, List.filter_eq_nil_iff]
    intro a ha
    have halt : a < audio.length := List.mem_range.mp ha
    simp only [decide_eq_true_eq]
    exact not_le.mpr (hno a halt)
  unfold trim_dead_air
  by_cases hlen : audio.length = 0
  · simp [hlen, List.length_eq_zero.mp hlen]
  · simp only [hlen, if_false]
    split
    · rfl
    · rename_i i rest heq
      rw [hidx] at heq
      exact absurd heq (List.cons_ne_nil i rest).symm

/-- C2: `trim` returns exactly the inclusive span from the first to the
last index whose sample has absolute value at least the linear threshold
`lin` (`= 10^(t/20)` in the source); if no index qualifies — in
particular for an all-zero buffer of any length with a positive
threshold, and for the empty buffer — it returns the empty buffer. -/
theorem trim_dead_air_spec (audio : List ℚ) (lin : ℚ) :
    ((∀ i, i < audio.length → |audio.getD i 0| < lin) →
      trim_dead_air audio lin = []) ∧
    (∀ s e, s < audio.length → e < audio.length →
      lin ≤ |audio.getD s 0| → lin ≤ |audio.getD e 0| →
      (∀ i, i < s → |audio.getD i 0| < lin) →
      (∀ i, e < i → i < audio.length → |audio.getD i 0| < lin) →
      trim_dead_air audio lin = (audio.drop s).take (e + 1 - s)) := by
  refine ⟨trim_dead_air_of_none audio lin, ?_⟩
  intro s e hs he hsm hem hfirst hlast
  have hsmem : s ∈ trimIndices audio lin := (trimIndices_mem _ _ _).mpr ⟨hs, hsm⟩
  have hemem : e ∈ trimIndices audio lin := (trimIndices_mem _ _ _).mpr ⟨he, hem⟩
  unfold trim_dead_air
  have hlen : ¬ audio.length = 0 := by omega
  simp only [hlen, if_false]
  split
  · rename_i heq
    rw [heq] at hsmem
    exact absurd hsmem (List.not_mem_nil s)
  · rename_i i rest heq
    have hpair : (i :: rest).Pairwise (· < ·) := heq ▸ trimIndices_pairwise audio lin
    have hsmem' : s ∈ i :: rest := heq ▸ hsmem
    have hemem' : e ∈ i :: rest := heq ▸ hemem
    have himem : i ∈ trimIndices audio lin := heq ▸ List.mem_cons_self i rest
    have hiq := (trimIndices_mem _ _ _).mp himem
    -- the head of the qualifying-index list is the first qualifying index
    have his : i = s := by
      have h1 : ¬ i < s := fun hlt => absurd hiq.2 (not_le.mpr (hfirst i hlt))
      have h2 : i ≤ s := by
        rcases List.mem_cons.mp hsmem' with rfl | hs'
        · exact le_refl s
        · exact le_of_lt (List.rel_of_pairwise_cons hpair hs')
      omega
    -- the last entry of the qualifying-index list is the last qualifying index
    have hlaste : (i :: rest).getLast (List.cons_ne_nil i rest) = e := by
      set L := (i :: rest).getLast (List.cons_ne_nil i rest) with hL
      have hLmem : L ∈ trimIndices audio lin :=
        heq ▸ List.getLast_mem (List.cons_ne_nil i rest)
      have hLq := (trimIndices_mem _ _ _).mp hLmem
      have h1 : ¬ e < L := fun hlt => absurd hLq.2 (not_le.mpr (hlast L hlt hLq.1))
      have h2 : e ≤ L := mem_le_getLast _ (List.cons_ne_nil i rest) hpair e hemem'
      omega
    rw [hlaste, his]

/-- C2 witness: in `[0, 1, 0, 2, 0]` with linear threshold `1`, the
first qualifying index is `1` and the last is `3`, so `trim` keeps the
inclusive span `[1, 0, 2]`; and `[0, 0]` trims to the empty buffer. -/
theorem trim_dead_air_spec_witness :
    trim_dead_air [0, 1, 0, 2, 0] 1 = [1, 0, 2] ∧ trim_dead_air [0, 0] 1 = [] := by
  constructor
  · have h := (trim_dead_air_spec [0, 1, 0, 2, 0] 1).2 1 3 (by decide) (by decide)
      (by decide) (by decide) (by decide)
      (by intro i h3 h5; simp only [List.length_cons, List.length_nil] at h5
          have h4 : i = 4 := by omega
          subst h4; decide)
    simpa using h
  · exact (trim_dead_air_spec [0, 0] 1).1 (by decide)

/-! ### C4 -/

lemma peak_nil : peak [] = 0 := rfl

lemma peak_cons (a : ℚ) (t : List ℚ) : peak (a :: t) = max |a| (peak t) := rfl

lemma peak_nonneg (l : List ℚ) : 0 ≤ peak l := by
  induction l with
  | nil => exact le_refl 0
  | cons a t ih => exact le_trans ih (le_max_right _ _)

lemma abs_le_peak (l : List ℚ) : ∀ a ∈ l, |a| ≤ peak l := by
  induction l with
  | nil => intro a ha; exact absurd ha (List.not_mem_nil a)
  | cons b t ih =>
    intro a ha
    rcases List.mem_cons.mp ha with rfl | ha'
    · exact le_max_left _ _
    · exact le_trans (ih a ha') (le_max_right _ _)

lemma peak_eq_abs_of_mem (l : List ℚ) (hl : 0 < peak l) :
    ∃ a ∈ l, |a| = peak l := by
  induction l with
  | nil => simp [peak_nil] at hl
  | cons b t ih =>
    rw [peak_cons]
    rcases le_total (peak t) |b| with hle | hle
    · exact ⟨b, List.mem_cons_self b t, (max_eq_left hle).symm⟩
    · rw [max_eq_right hle]
      rw [peak_cons, max_eq_right hle] at hl
      obtain ⟨a, ha, hpa⟩ := ih hl
      exact ⟨a, List.mem_cons_of_mem b ha, hpa⟩

lemma peak_map_div (l : List ℚ) (p : ℚ) (hp : 0 < p) :
    peak (l.map (fun a => a / p)) = peak l / p := by
  induction l with
  | nil => simp [peak_nil]
  | cons b t ih =>
    simp only [List.map_cons, peak_cons, ih, abs_div, abs_of_pos hp,
      max_div_div_right hp.le]

/-- In the positive-peak branch the clip is a pointwise no-op, so
`_normalize_peak` is exactly division by the peak. -/
lemma normalize_peak_of_pos (audio : List ℚ) (hp : 0 < peak audio) :
    normalize_peak audio = audio.map (fun a => a / peak audio) := by
  have hne : audio.length ≠ 0 := by
    intro h
    rw [List.length_eq_zero.mp h, peak_nil] at hp
    exact absurd hp (lt_irrefl 0)
  unfold normalize_peak
  simp only [hne, if_false, not_le.mpr hp, if_false]
  refine List.map_congr_left ?_
  intro a ha
  have hle : |a| ≤ peak audio := abs_le_peak audio a ha
  obtain ⟨hlo, hhi⟩ := abs_le.mp hle
  have h1 : -1 ≤ a / peak audio := by
    rw [le_div_iff₀ hp]
    linarith
  have h2 : a / peak audio ≤ 1 := by
    rw [div_le_one hp]
    exact hhi
  exact clip_of_mem _ h1 h2

lemma peak_normalize_peak (audio : List ℚ) (hp : 0 < peak audio) :
    peak (normalize_peak audio) = 1 := by
  rw [normalize_peak_of_pos audio hp, peak_map_div audio (peak audio) hp,
    div_self (ne_of_gt hp)]

/-- C4: `normalize` preserves length; it is the identity on buffers with
nonpositive peak (including the empty buffer); the peak after
normalizing a buffer of positive peak is exactly `1`; and `normalize` is
idempotent. -/
theorem normalize_peak_spec (audio : List ℚ) :
    (normalize_peak audio).length = audio.length ∧
    (peak audio ≤ 0 → normalize_peak audio = audio) ∧
    (0 < peak audio → peak (normalize_peak audio) = 1) ∧
    normalize_peak (normalize_peak audio) = normalize_peak audio := by
  have hid : peak audio ≤ 0 → normalize_peak audio = audio := by
    intro hle
    unfold normalize_peak
    by_cases hlen : audio.length = 0
    · simp [hlen]
    · simp [hlen, hle]
  refine ⟨?_, hid, peak_normalize_peak audio, ?_⟩
  · rcases le_or_lt (peak audio) 0 with hle | hp
    · rw [hid hle]
    · rw [normalize_peak_of_pos audio hp, List.length_map]
  · rcases le_or_lt (peak audio) 0 with hle | hp
    · rw [hid hle, hid hle]
    · have h1 : peak (normalize_peak audio) = 1 := peak_normalize_peak audio hp
      rw [normalize_peak_of_pos (normalize_peak audio) (h1 ▸ one_pos), h1]
      have : ∀ a ∈ normalize_peak audio, a / 1 = a := fun a _ => div_one a
      rw [List.map_congr_left this, List.map_id']

/-- C4 witness: `[1/2, -2]` has peak `2 > 0`; normalizing yields peak
exactly `1`, preserves the length `2`, and a second application changes
nothing; `[0, 0]` (peak `0`) passes through unchanged. -/
theorem normalize_peak_spec_witness :
    peak (normalize_peak [1/2, -2]) = 1 ∧
    normalize_peak (normalize_peak [1/2, -2]) = normalize_peak [1/2, -2] ∧
    normalize_peak [0, 0] = [0, 0] := by
  refine ⟨(normalize_peak_spec [1/2, -2]).2.2.1 ?_, ?_, ?_⟩
  · rw [peak_cons, peak_cons, peak_nil]
    norm_num
  · exact (normalize_peak_spec [1/2, -2]).2.2.2
  · exact (normalize_peak_spec [0, 0]).2.1 (by simp [peak_cons, peak_nil])

/-! ### C5 -/

lemma abs_npSign (a : ℚ) (ha : a ≠ 0) : |npSign a| = 1 := by
  unfold npSign
  rcases lt_trichotomy a 0 with h | h | h
  · simp [h]
  · exact absurd h ha
  · simp [h, not_lt.mpr h.le]

/-- C5: the compressor preserves length; each sample whose absolute
value exceeds the linear threshold `lin` (`= 10^(t/20)` in the source)
becomes `sign(a) * (lin + (|a| - lin) / max R 1)` and each sample with
`|a| ≤ lin` is unchanged bit-for-bit; and for a nonnegative threshold
(every `10^(t/20)` is positive) and ratio `R > 1`, compression never
increases the absolute value of an above-threshold sample. -/
theorem compress_dynamic_range_spec (audio : List ℚ) (lin R : ℚ) :
    (compress_dynamic_range audio lin R).length = audio.length ∧
    (∀ i, i < audio.length →
      (compress_dynamic_range audio lin R).getD i 0 =
        if lin < |audio.getD i 0| then
          npSign (audio.getD i 0) *
            (lin + (|audio.getD i 0| - lin) / max R 1)
        else audio.getD i 0) ∧
    (0 ≤ lin → 1 < R → ∀ i, i < audio.length → lin < |audio.getD i 0| →
      |(compress_dynamic_range audio lin R).getD i 0| ≤ |audio.getD i 0|) := by
  have hlen : (compress_dynamic_range audio lin R).length = audio.length := by
    unfold compress_dynamic_range
    by_cases h : audio.length = 0
    · simp [h]
    · simp [h]
  have hpt : ∀ i, i < audio.length →
      (compress_dynamic_range audio lin R).getD i 0 =
        if lin < |audio.getD i 0| then
          npSign (audio.getD i 0) *
            (lin + (|audio.getD i 0| - lin) / max R 1)
        else audio.getD i 0 := by
    intro i hi
    unfold compress_dynamic_range
    have h : ¬ audio.length = 0 := by omega
    simp only [h, if_false]
    rw [List.getD_eq_getElem _ _ (by simpa using hi),
      List.getD_eq_getElem _ _ hi, List.getElem_map]
  refine ⟨hlen, hpt, ?_⟩
  intro hlin hR i hi hover
  rw [hpt i hi, if_pos hover]
  set a := audio.getD i 0 with ha
  have hane : a ≠ 0 := by
    intro h0
    rw [h0, abs_zero] at hover
    exact absurd (lt_of_le_of_lt hlin hover) (lt_irrefl 0)
  have hr1 : (1 : ℚ) ≤ max R 1 := le_max_right R 1
  have hnum : 0 ≤ |a| - lin := by linarith
  have hdivnn : 0 ≤ (|a| - lin) / max R 1 :=
    div_nonneg hnum (le_trans zero_le_one hr1)
  have hval : 0 ≤ lin + (|a| - lin) / max R 1 := by linarith
  rw [abs_mul, abs_npSign a hane, one_mul, abs_of_nonneg hval]
  have hle : (|a| - lin) / max R 1 ≤ |a| - lin := div_le_self hnum hr1
  linarith

/-- C5 witness: on `[0, 2]` with linear threshold `1` and ratio `4`,
the above-threshold sample `2` becomes `1 + (2 - 1)/4 = 5/4`, whose
absolute value does not exceed `|2|`; the sub-threshold sample `0` is
unchanged. -/
theorem compress_dynamic_range_spec_witness :
    (compress_dynamic_range [0, 2] 1 4).getD 1 0 =
      npSign 2 * (1 + (|(2 : ℚ)| - 1) / max 4 1) ∧
    |(compress_dynamic_range [0, 2] 1 4).getD 1 0| ≤ |(2 : ℚ)| ∧
    (compress_dynamic_range [0, 2] 1 4).getD 0 0 = 0 := by
  have h := compress_dynamic_range_spec [0, 2] 1 4
  refine ⟨?_, ?_, ?_⟩
  · have h2 := h.2.1 1 (by decide)
    rw [if_pos (by norm_num)] at h2
    simpa using h2
  · have h3 := h.2.2 (by norm_num) (by norm_num) 1 (by decide) (by norm_num)
    simpa using h3
  · have h2 := h.2.1 0 (by decide)
    rw [if_neg (by norm_num)] at h2
    simpa using h2

/-! ### C6 -/

/-- `np.interp` never extrapolates: its value always lies within any
interval containing all interpolation values. -/
lemma npInterp_bounds (x lo hi : ℚ) :
    ∀ (ps : List (ℚ × ℚ)), ps ≠ [] → (∀ p ∈ ps, lo ≤ p.2 ∧ p.2 ≤ hi) →
    lo ≤ npInterp x ps ∧ npInterp x ps ≤ hi := by
  intro ps
  induction ps with
  | nil => intro h; exact absurd rfl h
  | cons hd tl ih =>
    intro _ hb
    obtain ⟨x0, y0⟩ := hd
    cases tl with
    | nil =>
      simp only [npInterp]
      exact hb (x0, y0) (List.mem_singleton.mpr rfl)
    | cons hd2 tl2 =>
      obtain ⟨x1, y1⟩ := hd2
      simp only [npInterp]
      split
      · exact hb (x0, y0) (by simp)
      · split
        · rename_i hx0 hx1
          have hx0' : x0 < x := not_le.mp hx0
          have hden : 0 < x1 - x0 := by
            have : x0 < x1 := lt_of_lt_of_le hx0' hx1
            linarith
          have hy0 := hb (x0, y0) (by simp)
          have hy1 := hb (x1, y1) (by simp)
          simp only at hy0 hy1
          set lam := (x - x0) / (x1 - x0) with hlam
          have hlam0 : 0 ≤ lam := le_of_lt (div_pos (by linarith) hden)
          have hlam1 : lam ≤ 1 := by
            rw [hlam, div_le_one hden]
            linarith
          have hval : y0 + (y1 - y0) * (x - x0) / (x1 - x0) =
              y0 + (y1 - y0) * lam := by
            rw [hlam, mul_div_assoc]
          rw [hval]
          constructor
          · nlinarith [mul_nonneg (by linarith : (0:ℚ) ≤ 1 - lam)
                (by linarith : (0:ℚ) ≤ y0 - lo),
              mul_nonneg hlam0 (by linarith : (0:ℚ) ≤ y1 - lo)]
          · nlinarith [mul_nonneg (by linarith : (0:ℚ) ≤ 1 - lam)
                (by linarith : (0:ℚ) ≤ hi - y0),
              mul_nonneg hlam0 (by linarith : (0:ℚ) ≤ hi - y1)]
        · exact ih (List.cons_ne_nil _ _)
            (fun p hp => hb p (List.mem_cons_of_mem _ hp))

lemma linspace_length (d : ℚ) (num : ℕ) : (linspace d num).length = num := by
  simp [linspace]

/-- Every output of `_resample` lies within any interval containing all
input samples (in particular, the interpolation loop never reads
outside the input array's extent). -/
lemma resample_bounds (audio : List ℚ) (rs rt : ℕ) (lo hi : ℚ)
    (hb : ∀ a ∈ audio, lo ≤ a ∧ a ≤ hi) :
    ∀ y ∈ resample audio rs rt, lo ≤ y ∧ y ≤ hi := by
  intro y hy
  unfold resample at hy
  split at hy
  · exact hb y hy
  · rename_i hcond
    dsimp only at hy
    split at hy
    · exact hb y hy
    · simp only [List.mem_map] at hy
      obtain ⟨x, _, rfl⟩ := hy
      apply npInterp_bounds
      · intro hz
        rcases List.zip_eq_nil_iff.mp hz with h | h
        · have := linspace_length ((audio.length : ℚ) / (rs : ℚ)) audio.length
          rw [h] at this
          exact hcond (Or.inr this.symm)
        · exact hcond (Or.inr (by rw [h]; rfl))
      · intro p hp
        obtain ⟨p1, p2⟩ := p
        exact hb p2 (List.mem_zip hp).2

/-- C6: `resample` at equal rates is the identity; it returns the input
unchanged when the buffer is empty or the computed
`target_length = round((sample_count / r_src) * r_tgt)` is ≤ 1;
otherwise it returns exactly `target_length` samples, namely the linear
interpolation of the original signal at evenly spaced time points; and
its outputs always stay within the value bounds of the input samples
(the interpolation never reads outside the array extent). -/
theorem resample_spec (audio : List ℚ) (r rs rt : ℕ) :
    resample audio r r = audio ∧
    (audio.length = 0 → resample audio rs rt = audio) ∧
    (resampleTargetLength audio.length rs rt ≤ 1 →
      resample audio rs rt = audio) ∧
    (rs ≠ rt → audio.length ≠ 0 →
      1 < resampleTargetLength audio.length rs rt →
      (resample audio rs rt).length =
        (resampleTargetLength audio.length rs rt).toNat ∧
      resample audio rs rt =
        (linspace ((audio.length : ℚ) / (rs : ℚ))
            (resampleTargetLength audio.length rs rt).toNat).map
          (fun x => npInterp x
            ((linspace ((audio.length : ℚ) / (rs : ℚ)) audio.length).zip
              audio))) ∧
    (∀ lo hi, (∀ a ∈ audio, lo ≤ a ∧ a ≤ hi) →
      ∀ y ∈ resample audio rs rt, lo ≤ y ∧ y ≤ hi) := by
  refine ⟨?_, ?_, ?_, ?_, fun lo hi hb => resample_bounds audio rs rt lo hi hb⟩
  · unfold resample
    rw [if_pos (Or.inl rfl)]
  · intro h
    unfold resample
    rw [if_pos (Or.inr h)]
  · intro h
    unfold resample
    split
    · rfl
    · dsimp only
      rw [if_pos h]
  · intro hne hlen hgt
    unfold resample
    rw [if_neg (by push_neg; exact ⟨hne, hlen⟩)]
    dsimp only
    rw [if_neg (not_le.mpr hgt)]
    constructor
    · rw [List.length_map, linspace_length]
    · rfl

/-- C6 witness: `resample [0, 1] 1 2` has target length
`round((2/1)*2) = 4` and produces 4 interpolated samples; equal-rate
resampling of the same buffer is the identity; and all outputs stay
within the input bounds `[0, 1]`. -/
theorem resample_spec_witness :
    (resample [0, 1] 1 2).length =
      (resampleTargetLength ([0, 1] : List ℚ).length 1 2).toNat ∧
    resample [0, 1] 2 2 = [0, 1] ∧
    (∀ y ∈ resample [0, 1] 1 2, 0 ≤ y ∧ y ≤ 1) := by
  refine ⟨?_, (resample_spec [0, 1] 2 1 2).1, ?_⟩
  · exact ((resample_spec [0, 1] 2 1 2).2.2.2.1 (by decide) (by decide)
      (by norm_num [resampleTargetLength, pyRound])).1
  · exact (resample_spec [0, 1] 2 1 2).2.2.2.2 0 1 (by decide)

/-! ### C8 -/

lemma chunkList_nil (k : ℕ) : chunkList k ([] : List α) = [] := by
  rw [chunkList]
  simp

lemma chunkList_cons (k : ℕ) (l : List α) (hk : k ≠ 0) (hl : l.length ≠ 0) :
    chunkList k l = l.take k :: chunkList k (l.drop k) := by
  rw [chunkList]
  simp [hk, hl]

lemma chunkList_length (c : ℕ) (hc : 0 < c) :
    ∀ (m : ℕ) (l : List α), l.length = c * m → (chunkList c l).length = m := by
  intro m
  induction m with
  | zero =>
    intro l hl
    have h0 : l = [] := List.length_eq_zero.mp (by simpa using hl)
    subst h0
    rw [chunkList_nil]
    rfl
  | succ m ih =>
    intro l hl
    have hpos : 0 < c * (m + 1) := Nat.mul_pos hc (Nat.succ_pos m)
    have hl0 : l.length ≠ 0 := by omega
    rw [chunkList_cons c l (by omega) hl0, List.length_cons,
      ih (l.drop c) (by rw [List.length_drop, hl, Nat.mul_succ]; omega)]

lemma sampleToFloat_bounds (d : Dtype) (s : ℤ) :
    -1 ≤ sampleToFloat d s ∧ sampleToFloat d s ≤ 1 := by
  cases d <;> exact clip_mem_Icc _

lemma ensure_mono_getD (c : ℕ) (hc : 1 < c) :
    ∀ (t : ℕ) (audio : List ℚ), (t + 1) * c ≤ audio.length →
    (ensure_mono c audio).getD t 0 =
      ((audio.drop (t * c)).take c).sum / (c : ℚ) := by
  intro t
  induction t with
  | zero =>
    intro audio h
    unfold ensure_mono
    rw [if_neg (by omega)]
    have hl0 : audio.length ≠ 0 := by omega
    rw [chunkList_cons c audio (by omega) hl0, List.map_cons,
      List.getD_cons_zero, Nat.zero_mul, List.drop_zero]
  | succ t ih =>
    intro audio h
    have hexp : (t + 1 + 1) * c = (t + 1) * c + c := by ring
    have hcle : c ≤ audio.length := by
      have h1 : c ≤ (t + 1 + 1) * c := Nat.le_mul_of_pos_left c (by omega)
      omega
    unfold ensure_mono
    rw [if_neg (by omega)]
    have hl0 : audio.length ≠ 0 := by omega
    rw [chunkList_cons c audio (by omega) hl0, List.map_cons,
      List.getD_cons_succ]
    have hih := ih (audio.drop c) (by rw [List.length_drop]; omega)
    unfold ensure_mono at hih
    rw [if_neg (by omega)] at hih
    rw [hih, List.drop_drop]
    rw [show c + t * c = (t + 1) * c by ring]

/-- C8: the format normalizer maps unsigned 8-bit samples to
`(s - 128)/128`, signed 16-bit samples to `s/32768` and signed 32-bit
samples to `s/2^31`, each clamped to `[-1, 1]`; every produced value
lies in `[-1, 1]`; multi-channel input is collapsed to mono by taking
at each time step the arithmetic mean across the `c` channel samples
(not a max or a sum); and zero-length input yields a zero-length
buffer. -/
theorem format_normalizer_spec (d : Dtype) (c : ℕ) (samples : List ℤ)
    (audio : List ℚ) :
    (to_float32 ⟨d, c, samples⟩).length = samples.length ∧
    (∀ i, i < samples.length →
      (to_float32 ⟨Dtype.uint8, c, samples⟩).getD i 0 =
        clip (((samples.getD i 0 : ℚ) - 128) / 128) (-1) 1 ∧
      (to_float32 ⟨Dtype.int16, c, samples⟩).getD i 0 =
        clip ((samples.getD i 0 : ℚ) / 32768) (-1) 1 ∧
      (to_float32 ⟨Dtype.int32, c, samples⟩).getD i 0 =
        clip ((samples.getD i 0 : ℚ) / 2147483648) (-1) 1) ∧
    (∀ x ∈ to_float32 ⟨d, c, samples⟩, -1 ≤ x ∧ x ≤ 1) ∧
    (1 < c → ∀ t, (t + 1) * c ≤ audio.length →
      (ensure_mono c audio).getD t 0 =
        ((audio.drop (t * c)).take c).sum / (c : ℚ)) ∧
    (1 < c → c ∣ audio.length →
      (ensure_mono c audio).length = audio.length / c) ∧
    (to_float32 ⟨d, c, []⟩ = [] ∧ ensure_mono c [] = []) := by
  refine ⟨List.length_map _ _, ?_, ?_,
    fun hc t => ensure_mono_getD c hc t audio, ?_, rfl, ?_⟩
  · intro i hi
    unfold to_float32
    refine ⟨?_, ?_, ?_⟩ <;>
      rw [List.getD_eq_getElem _ _ (by simpa using hi),
        List.getD_eq_getElem _ _ hi, List.getElem_map] <;> rfl
  · intro x hx
    obtain ⟨s, _, rfl⟩ := List.mem_map.mp hx
    exact sampleToFloat_bounds d s
  · intro hc hdvd
    unfold ensure_mono
    rw [if_neg (by omega), List.length_map]
    exact chunkList_length c (by omega) (audio.length / c) audio
      (Nat.mul_div_cancel' hdvd).symm
  · unfold ensure_mono
    by_cases hcle : c ≤ 1
    · rw [if_pos hcle]
    · rw [if_neg hcle, chunkList_nil]
      rfl

/-- C8 witness: the unsigned 8-bit sample `200` maps to
`clip((200-128)/128)`, the stereo buffer `[0, 1, 1, 1]` mixes down to
the per-time-step means (first output `(0+1)/2`), and the mixdown of 4
samples over 2 channels has length 2. -/
theorem format_normalizer_spec_witness :
    (to_float32 ⟨Dtype.uint8, 1, [200]⟩).getD 0 0 =
      clip (((200 : ℚ) - 128) / 128) (-1) 1 ∧
    (ensure_mono 2 [0, 1, 1, 1]).getD 0 0 = ([0, 1] : List ℚ).sum / 2 ∧
    (ensure_mono 2 [0, 1, 1, 1]).length = 2 := by
  refine ⟨?_, ?_, ?_⟩
  · have h := ((format_normalizer_spec Dtype.uint8 1 [200] []).2.1 0
      (by decide)).1
    simpa using h
  · have h := (format_normalizer_spec Dtype.uint8 2 [] [0, 1, 1, 1]).2.2.2.1
      (by decide) 0 (by decide)
    simpa using h
  · have h := (format_normalizer_spec Dtype.uint8 2 [] [0, 1, 1, 1]).2.2.2.2.1
      (by decide) (by decide)
    simpa using h

/-! ### C1 -/

lemma decodeInt16Samples_replicate_zero (n : ℕ) :
    decodeInt16Samples (List.replicate (2 * n) 0) = List.replicate n 0 := by
  induction n with
  | zero => rfl
  | succ n ih =>
    have h2 : List.replicate (2 * (n + 1)) (0 : ℕ) =
        0 :: 0 :: List.replicate (2 * n) 0 := by
      rw [show 2 * (n + 1) = 2 * n + 1 + 1 by ring, List.replicate_succ,
        List.replicate_succ]
    rw [h2]
    show toSigned16 (0 + 256 * 0) :: decodeInt16Samples (List.replicate (2 * n) 0)
      = List.replicate (n + 1) 0
    rw [ih, List.replicate_succ]
    norm_num [toSigned16]

lemma sampleToFloat_int16_zero : sampleToFloat Dtype.int16 0 = 0 := by
  norm_num [sampleToFloat, clip]

lemma resample_allZero (audio : List ℚ) (rs rt : ℕ)
    (h : ∀ x ∈ audio, x = 0) : ∀ y ∈ resample audio rs rt, y = 0 := by
  intro y hy
  have hb := resample_bounds audio rs rt 0 0
    (fun a ha => by rw [h a ha]; exact ⟨le_refl 0, le_refl 0⟩) y hy
  exact le_antisymm hb.2 hb.1

lemma gate_allZero (audio : List ℚ) (lin : ℚ) (h : ∀ x ∈ audio, x = 0) :
    ∀ x ∈ apply_noise_gate audio lin, x = 0 := by
  intro x hx
  unfold apply_noise_gate at hx
  split at hx
  · exact h x hx
  · obtain ⟨a, ha, rfl⟩ := List.mem_map.mp hx
    have ha0 := h a ha
    subst ha0
    split <;> rfl

lemma trim_allZero (audio : List ℚ) (lin : ℚ) (h : ∀ x ∈ audio, x = 0)
    (hlin : 0 < lin) : trim_dead_air audio lin = [] := by
  apply trim_dead_air_of_none
  intro i hi
  rw [List.getD_eq_getElem audio 0 hi, h _ (List.getElem_mem hi), abs_zero]
  exact hlin

/-- C1: on any well-formed 16-bit mono WAV whose samples are all zero
(frame bytes `2*n` zeros), `prepare_audio` returns `None`, for every
positive sample rate, every nonempty raw byte string, every format tag,
and all parameter settings with a positive trim threshold (the source's
trim threshold `10^((noise_gate_db+5)/20)` is always positive): gating
leaves the signal all-zero and trimming collapses it to the empty
buffer. -/
theorem prepare_audio_all_zero (bytes : List ℕ) (rate n : ℕ)
    (fmt : Option String) (g t c R : ℚ)
    (hb : bytes ≠ []) (hrate : 0 < rate) (ht : 0 < t) :
    prepare_audio bytes ⟨rate, 1, 2, List.replicate (2 * n) 0⟩ fmt g t c R =
      Except.ok none := by
  unfold prepare_audio
  rw [if_neg hb]
  have hdec : read_wav_bytes ⟨rate, 1, 2, List.replicate (2 * n) 0⟩ =
      .ok (rate, ⟨.int16, 1, List.replicate n 0⟩) := by
    unfold read_wav_bytes decodeByWidth
    simp only [List.length_replicate]
    rw [if_pos (by omega : 2 * n % 2 = 0), decodeInt16Samples_replicate_zero]
    simp
  rw [hdec]
  dsimp only
  have hfloat : to_float32 ⟨Dtype.int16, 1, List.replicate n 0⟩ =
      List.replicate n (0 : ℚ) := by
    unfold to_float32
    rw [List.map_replicate, sampleToFloat_int16_zero]
  have hmono : ensure_mono 1 (List.replicate n (0 : ℚ)) =
      List.replicate n 0 := by
    unfold ensure_mono
    rw [if_pos (le_refl 1)]
  rw [hfloat, hmono]
  have hz : ∀ y ∈ resample (List.replicate n (0 : ℚ)) rate DEFAULT_SAMPLE_RATE,
      y = 0 :=
    resample_allZero _ _ _ (fun x hx => List.eq_of_mem_replicate hx)
  have hgz : ∀ x ∈ apply_noise_gate
      (resample (List.replicate n (0 : ℚ)) rate DEFAULT_SAMPLE_RATE) g, x = 0 :=
    gate_allZero _ _ hz
  rw [trim_allZero _ _ hgz ht]
  rfl

/-- C1 witness: a 16-bit, 8000 Hz, mono WAV of 3000 all-zero samples
(6000 zero frame bytes) yields `None` under the default parameter
settings (whose linear trim threshold is positive). -/
theorem prepare_audio_all_zero_witness :
    prepare_audio [82] ⟨8000, 1, 2, List.replicate 6000 0⟩ (some "wav")
      (1/316) (1/177) (1/10) 4 = Except.ok none :=
  prepare_audio_all_zero [82] 8000 3000 (some "wav") (1/316) (1/177) (1/10) 4
    (by decide) (by decide) (by norm_num)
